import Mathlib

/-!
Verification of the desync repository against its specification.

This file gives a shallow embedding, in Lean 4, of the parts of the Go
source that the checked claims are about:

* the `selfSeed` bookkeeping used by the assembler (`selfseed.go`):
  `add`, `LongestMatchWith`, `maxMatchFrom`;
* `LocalStore` and `GCSStore` pruning and chunk removal (`local.go`, `gcs.go`);
* the rename-retry loop of `LocalStore.StoreChunk`;
* store-location parsing (`store_utils.go`): `storeGroup`,
  `MultiStoreWithRouter`, `MultiStoreWithCache`;
* the Windows `tar` entry synthesis (`tar_windows.go`);
* `GCSStore.HasChunk`.

Go maps are embedded as association lists with map-like update semantics,
goroutine mutexes are dropped (each embedded operation is the body of the
critical section, which the Go code executes atomically under `s.mu`), and
filesystem / network effects are made explicit: the filesystem is a list of
paths, and outcomes of individual syscalls that the code branches on are
supplied as explicit oracle inputs.
-/

/-! ## Association lists with Go-map semantics

`alookup` is Go's `m[k]` (comma-ok form), `aset` is `m[k] = v`,
`aerase` is `delete(m, k)`.  `aset`/`aerase` keep at most one binding
per key when starting from the empty list, but the lemmas below do not
assume that.
-/

def alookup {α β : Type} [DecidableEq α] (k : α) : List (α × β) → Option β
  | [] => none
  | (k', v) :: rest => if k' = k then some v else alookup k rest

def aerase {α β : Type} [DecidableEq α] (k : α) : List (α × β) → List (α × β)
  | [] => []
  | kv :: rest => if kv.1 = k then aerase k rest else kv :: aerase k rest

def aset {α β : Type} [DecidableEq α] (k : α) (v : β) (l : List (α × β)) : List (α × β) :=
  (k, v) :: aerase k l

/-! ## The selfSeed model (`selfseed.go`)

Chunk digests are abstracted to natural numbers; `IndexChunk` mirrors the
Go struct (ID, Start, Size).  The `file`, `canReflink` and `mu` fields of
the Go `selfSeed` are omitted: they do not take part in the bookkeeping
the claims are about.
-/

abbrev CID := Nat

structure IndexChunk where
  id : CID
  start : Nat
  size : Nat
deriving DecidableEq, Repr

/-- The mutable state of a `selfSeed`: the index of the file being
assembled, the position map `pos`, the write pointer `written` and the
out-of-order completion `cache` (`first ↦ last+1`). -/
structure SelfSeed where
  index : List IndexChunk
  pos : List (CID × List Nat)
  written : Nat
  cache : List (Nat × Nat)
deriving Repr

/-- `s.index.Chunks[i].ID`, with a default for the out-of-range case (the
Go code would panic there; the claims are stated on panic-free inputs). -/
def idAt (index : List IndexChunk) (i : Nat) : CID :=
  ((index[i]?).map IndexChunk.id).getD 0

def posFind (pos : List (CID × List Nat)) (c : CID) : List Nat :=
  (alookup c pos).getD []

/-- Go: `s.pos[chunk.ID] = append(s.pos[chunk.ID], i)`. -/
def posAppend (pos : List (CID × List Nat)) (c : CID) (i : Nat) :
    List (CID × List Nat) :=
  aset c (posFind pos c ++ [i]) pos

/-- The inner `for i := s.written; i < next; i++` loop of `selfSeed.add`:
record positions `a, a+1, ..., b-1` in the position map. -/
def recordRange (index : List IndexChunk) (pos : List (CID × List Nat))
    (a b : Nat) : List (CID × List Nat) :=
  (List.range' a (b - a)).foldl (fun p i => posAppend p (idAt index i) i) pos

/-- The `for { next, ok := s.cache[s.written] ... }` loop of
`selfSeed.add`, with explicit fuel.  Every iteration deletes the binding
at the current key, so fuel `cache.length` always suffices
(`addLoopF_fuel`). -/
def addLoopF (index : List IndexChunk) :
    Nat → List (CID × List Nat) → Nat → List (Nat × Nat) → SelfSeed
  | 0, pos, written, cache => ⟨index, pos, written, cache⟩
  | fuel + 1, pos, written, cache =>
    match alookup written cache with
    | none => ⟨index, pos, written, cache⟩
    | some next =>
      addLoopF index fuel (recordRange index pos written next) next
        (aerase written cache)

/-- `selfSeed.add`: record the completed segment `[first..last]` in the
cache and advance the write pointer over every contiguous completed
segment. -/
def SelfSeed.add (s : SelfSeed) (seg : Nat × Nat) : SelfSeed :=
  let cache1 := aset seg.1 (seg.2 + 1) s.cache
  addLoopF s.index cache1.length s.pos s.written cache1

/-- `newSelfSeed`: empty position map, `written = 0`, empty cache. -/
def newSelfSeed (index : List IndexChunk) : SelfSeed :=
  ⟨index, [], 0, []⟩

/-- A sequence of `add` calls (the Go calls are serialized by `s.mu`, so
any concurrent interleaving is some such sequence). -/
def addAll (index : List IndexChunk) (segs : List (Nat × Nat)) : SelfSeed :=
  segs.foldl SelfSeed.add (newSelfSeed index)

/-- The scan loop of `selfSeed.maxMatchFrom`, with fuel.  Each iteration
increments `dp`, and the loop stops as soon as `written ≤ dp`, so fuel
`written - dp` is exact (when it runs out, `written ≤ dp` holds and the
loop would stop anyway). -/
def matchLenF (index chunks : List IndexChunk) (written : Nat) :
    Nat → Nat → Nat → Nat
  | 0, _, _ => 0
  | fuel + 1, dp, sp =>
    if written ≤ dp ∨ chunks.length ≤ sp then 0
    else if idAt chunks sp ≠ idAt index dp then 0
    else 1 + matchLenF index chunks written fuel (dp + 1) (sp + 1)

/-- Number of positions matched comparing `chunks[sp:]` against
`index[dp:]`, stopping at `written`. -/
def matchLen (index chunks : List IndexChunk) (written : Nat)
    (dp sp : Nat) : Nat :=
  matchLenF index chunks written (written - dp) dp sp

/-- `selfSeed.maxMatchFrom`: the slice `s.index.Chunks[p:dp]` of matched
chunks starting at seed position `p`. -/
def SelfSeed.maxMatchFrom (s : SelfSeed) (chunks : List IndexChunk)
    (p : Nat) : List IndexChunk :=
  if chunks.length = 0 then []
  else (s.index.take (p + matchLen s.index chunks s.written p 0)).drop p

/-- `selfSeed.LongestMatchWith`.  The second component is the winning
`(p, match)` pair fed to `newFileSeedSegment` (`none` when the number of
matched chunks is `0`, where the Go code hands `newFileSeedSegment` a
`nil` slice). -/
def SelfSeed.LongestMatchWith (s : SelfSeed) (chunks : List IndexChunk) :
    Nat × Option (Nat × List IndexChunk) :=
  if chunks.length = 0 ∨ s.index.length = 0 then (0, none)
  else
    match alookup (idAt chunks 0) s.pos with
    | none => (0, none)
    | some ps =>
      ps.foldl
        (fun acc p =>
          let m := s.maxMatchFrom chunks p
          if acc.1 < m.length then (m.length, some (p, m)) else acc)
        (0, none)

/-- Prefixes of the index reachable by chaining added segments from 0:
`Reach segs w` holds when the chunk range `[0, w)` is exactly covered by
a chain of segments from `segs`, each starting where the previous one
ended.  `written` is specified as the greatest such `w`. -/
inductive Reach (segs : List (Nat × Nat)) : Nat → Prop where
  | zero : Reach segs 0
  | step {w l : Nat} : Reach segs w → (w, l) ∈ segs → Reach segs (l + 1)

/-- Well-formed segments: `first ≤ last` (an `IndexSegment` is a nonempty
run of consecutive chunks). -/
abbrev SegWF (segs : List (Nat × Nat)) : Prop :=
  ∀ sg ∈ segs, sg.1 ≤ sg.2

/-- Pairwise-disjoint segments, as produced by the assembler's plan: two
distinct segments cover disjoint chunk ranges. -/
abbrev SegDisj (segs : List (Nat × Nat)) : Prop :=
  ∀ a ∈ segs, ∀ b ∈ segs, a ≠ b → (a.2 < b.1 ∨ b.2 < a.1)

/-- `pos` holds exactly the positions below `written`, each filed under
the ID of its index chunk. -/
def PosOK (index : List IndexChunk) (pos : List (CID × List Nat))
    (written : Nat) : Prop :=
  ∀ c i, i ∈ posFind pos c ↔ (i < written ∧ idAt index i = c)

/-- Every cache binding is `first ↦ last+1` for a segment added so far. -/
def CacheProv (done cache : List (Nat × Nat)) : Prop :=
  ∀ kv ∈ cache, ∃ sg ∈ done, kv = (sg.1, sg.2 + 1)

/-- No cache binding is for a position the write pointer has passed. -/
def NoStale (written : Nat) (cache : List (Nat × Nat)) : Prop :=
  ∀ kv ∈ cache, written ≤ kv.1

/-- Every position below `written` is covered by an added segment. -/
def Coverage (done : List (Nat × Nat)) (written : Nat) : Prop :=
  ∀ i, i < written → ∃ sg ∈ done, sg.1 ≤ i ∧ i ≤ sg.2

/-- Every added segment is still pending in the cache or has been passed
by the write pointer. -/
def PendingOrPassed (done : List (Nat × Nat)) (written : Nat)
    (cache : List (Nat × Nat)) : Prop :=
  ∀ sg ∈ done, (sg.1, sg.2 + 1) ∈ cache ∨ sg.2 + 1 ≤ written

/-- The combined `selfSeed` state invariant after the segments in `done`
have been added. -/
def SeedInv (index : List IndexChunk) (done : List (Nat × Nat))
    (s : SelfSeed) : Prop :=
  s.index = index ∧
  PosOK index s.pos s.written ∧
  CacheProv done s.cache ∧
  NoStale s.written s.cache ∧
  alookup s.written s.cache = none ∧
  Reach done s.written ∧
  Coverage done s.written ∧
  PendingOrPassed done s.written s.cache

/-! ## Chunk IDs and store file names (`gcs.go`, `local.go`)

Paths and object names are lists of characters.  A `ChunkID` is the
32-byte digest; `ChunkIDFromString` is hex decoding (Go's
`hex.DecodeString` accepts both letter cases) followed by a length
check, and `ChunkID.String` is lowercase hex encoding.
-/

/-- The hex digits accepted by Go's `hex.DecodeString`, with their
values (exactly the 22 characters 0-9, a-f, A-F). -/
def hexTable : List (Char × Nat) :=
  [('0', 0), ('1', 1), ('2', 2), ('3', 3), ('4', 4), ('5', 5), ('6', 6),
   ('7', 7), ('8', 8), ('9', 9), ('a', 10), ('b', 11), ('c', 12), ('d', 13),
   ('e', 14), ('f', 15), ('A', 10), ('B', 11), ('C', 12), ('D', 13),
   ('E', 14), ('F', 15)]

/-- The value of a hex digit; any other character fails. -/
def hexVal (c : Char) : Option Nat :=
  alookup c hexTable

/-- The lowercase hex digits, as emitted by Go's `hex.EncodeToString`. -/
def hexDigits : List Char :=
  "0123456789abcdef".toList

/-- Lowercase hex digit for a nibble.  Nibbles are always `< 16`; the
default is unreachable for bytes. -/
def hexDigitChar (n : Nat) : Char :=
  hexDigits.getD n '*'

/-- `hex.DecodeString`: pairs of hex digits to bytes; odd length or a
non-hex character fails. -/
def decodeHex : List Char → Option (List Nat)
  | [] => some []
  | [_] => none
  | c1 :: c2 :: rest =>
    match hexVal c1, hexVal c2, decodeHex rest with
    | some h, some l, some bs => some ((h * 16 + l) :: bs)
    | _, _, _ => none

/-- `hex.EncodeToString` over bytes. -/
def encodeHex : List Nat → List Char
  | [] => []
  | b :: bs => hexDigitChar (b / 16) :: hexDigitChar (b % 16) :: encodeHex bs

/-- A chunk digest: 32 bytes for a well-formed ID. -/
structure ChunkID where
  bytes : List Nat
deriving DecidableEq, Repr

/-- `ChunkIDFromString`: hex-decode and require 32 bytes. -/
def ChunkIDFromString (s : List Char) : Option ChunkID :=
  match decodeHex s with
  | none => none
  | some bs => if bs.length = 32 then some ⟨bs⟩ else none

/-- `ChunkID.String()`: lowercase hex. -/
def idStr (id : ChunkID) : List Char :=
  encodeHex id.bytes

/-- `filepath.Join` on Unix separators (the cleaning Join performs does
not matter for the names built here). -/
def pathJoin (a b : List Char) : List Char :=
  a ++ '/' :: b

/-- `CompressedChunkExt` / `UncompressedChunkExt`, selected by the
store-wide `Uncompressed` option. -/
def chunkExt (uncompressed : Bool) : List Char :=
  if uncompressed then ".uncacnk".toList else ".cacnk".toList

/-- `LocalStore.nameFromID`: `Join(Base, sID[0:4])/sID + ext`. -/
def localNameFromID (base : List Char) (unc : Bool) (id : ChunkID) :
    List Char :=
  pathJoin (pathJoin base ((idStr id).take 4)) (idStr id) ++ chunkExt unc

/-- `GCSStore.nameFromID`: `prefix + sID[0:4] + "/" + sID + ext`. -/
def gcsNameFromID (pfx : List Char) (unc : Bool) (id : ChunkID) :
    List Char :=
  ((pfx ++ (idStr id).take 4) ++ '/' :: idStr id) ++ chunkExt unc

/-- `strings.HasSuffix`. -/
def hasSfx (s sfx : List Char) : Prop :=
  sfx <:+ s

instance (s sfx : List Char) : Decidable (hasSfx s sfx) :=
  inferInstanceAs (Decidable (sfx <:+ s))

/-- `strings.TrimSuffix`. -/
def trimSfx (s sfx : List Char) : List Char :=
  if hasSfx s sfx then s.take (s.length - sfx.length) else s

/-- `strings.TrimPrefix`. -/
def trimPfx (s p : List Char) : List Char :=
  if p <+: s then s.drop p.length else s

/-- `filepath.Base` for the slash-containing paths built here: the part
after the last separator. -/
def baseNameOf (p : List Char) : List Char :=
  (p.reverse.takeWhile (fun c => decide (c ≠ '/'))).reverse

/-- `strings.Split` on a single separator character. -/
def splitCh (sep : Char) : List Char → List (List Char)
  | [] => [[]]
  | c :: rest =>
    match splitCh sep rest with
    | [] => [[]]
    | g :: gs => if c = sep then [] :: g :: gs else (c :: g) :: gs

/-- `GCSStore.idFromName`: trim the store prefix and the extension,
require exactly `dir/file` with `dir` a prefix of `file`, and parse the
file part as a chunk ID. -/
def gcsIDFromName (pfx : List Char) (unc : Bool) (name : List Char) :
    Option ChunkID :=
  if ¬ hasSfx name (chunkExt unc) then none
  else
    match splitCh '/' (trimSfx (trimPfx name pfx) (chunkExt unc)) with
    | [idx, sid] => if idx <+: sid then ChunkIDFromString sid else none
    | _ => none

/-! ## Prune (`LocalStore.Prune`, `GCSStore.Prune`)

The filesystem (or bucket) is the list of existing paths (object
names); the walk (or object iterator) is given as the list of entries
it yields.  Keeping the two separate models concurrent deletion: a
walked entry may no longer exist when `RemoveChunk` runs.  `bad` lists
paths whose deletion fails with a non-missing error (e.g. permissions).
Context cancellation and walk errors are not modelled.
-/

inductive PruneErr where
  | chunkMissing (id : ChunkID)       -- ChunkMissing{id} (local), already gone
  | objNotExist (name : List Char)    -- storage.ErrObjectNotExist (GCS)
  | ioErr (p : List Char)             -- any other delete failure
deriving DecidableEq, Repr

structure WalkEntry where
  path : List Char
  isDir : Bool
deriving DecidableEq, Repr

/-- `LocalStore.RemoveChunk`: stat, report `ChunkMissing` when the file
is gone, otherwise `os.Remove`. -/
def localRemoveChunk (base : List Char) (unc : Bool)
    (fs bad : List (List Char)) (id : ChunkID) :
    Except PruneErr (List (List Char)) :=
  let p := localNameFromID base unc id
  if p ∈ fs then
    if p ∈ bad then .error (.ioErr p) else .ok (fs.erase p)
  else .error (.chunkMissing id)

/-- The walk callback of `LocalStore.Prune` for one entry. -/
def localPruneStep (base : List Char) (unc : Bool) (live : List ChunkID)
    (bad : List (List Char)) (fs : List (List Char)) (e : WalkEntry) :
    Except PruneErr (List (List Char)) :=
  if e.isDir then .ok fs
  else if ¬ hasSfx e.path (chunkExt unc) then .ok fs
  else
    match ChunkIDFromString (trimSfx (baseNameOf e.path) (chunkExt unc)) with
    | none => .ok fs
    | some id => if id ∈ live then .ok fs else localRemoveChunk base unc fs bad id

/-- `LocalStore.Prune`: walk all entries; an error from the callback
aborts the walk and is returned, leaving the rest untouched. -/
def localPrune (base : List Char) (unc : Bool) (live : List ChunkID)
    (bad : List (List Char)) :
    List WalkEntry → List (List Char) → List (List Char) × Option PruneErr
  | [], fs => (fs, none)
  | e :: rest, fs =>
    match localPruneStep base unc live bad fs e with
    | .ok fs1 => localPrune base unc live bad rest fs1
    | .error err => (fs, some err)

/-- `GCSStore.RemoveChunk`: delete the object; deleting an absent object
fails with `storage.ErrObjectNotExist`. -/
def gcsRemoveChunk (pfx : List Char) (unc : Bool)
    (objs bad : List (List Char)) (id : ChunkID) :
    Except PruneErr (List (List Char)) :=
  let nm := gcsNameFromID pfx unc id
  if nm ∈ objs then
    if nm ∈ bad then .error (.ioErr nm) else .ok (objs.erase nm)
  else .error (.objNotExist nm)

/-- The loop body of `GCSStore.Prune` for one listed object name
(a name that does not parse as a chunk is skipped with `continue`). -/
def gcsPruneStep (pfx : List Char) (unc : Bool) (live : List ChunkID)
    (bad : List (List Char)) (objs : List (List Char)) (name : List Char) :
    Except PruneErr (List (List Char)) :=
  match gcsIDFromName pfx unc name with
  | none => .ok objs
  | some id => if id ∈ live then .ok objs else gcsRemoveChunk pfx unc objs bad id

/-- `GCSStore.Prune` over the names yielded by the object iterator. -/
def gcsPrune (pfx : List Char) (unc : Bool) (live : List ChunkID)
    (bad : List (List Char)) :
    List (List Char) → List (List Char) → List (List Char) × Option PruneErr
  | [], objs => (objs, none)
  | nm :: rest, objs =>
    match gcsPruneStep pfx unc live bad objs nm with
    | .ok objs1 => gcsPrune pfx unc live bad rest objs1
    | .error err => (objs, some err)

/-! ## The rename-retry loop of `LocalStore.StoreChunk`

The loop runs after the temp file has been written and the first
`os.Rename` has failed.  Syscall outcomes are supplied by an oracle
environment indexed by the loop iteration (rename attempt `k`;
iteration `j` performs rename attempt `j+1`).  The model also returns
the trace of effects the loop performs, in order.  Its log prints are
not modelled; the outcome of `os.Remove(p)` on an invalid destination
is not modelled because every outcome of that call falls through to the
same retry path (the `break` in the Go source leaves only the type
switch). -/

inductive ValidateOutcome where
  | valid                 -- getChunkForceValidate: err == nil
  | chunkInvalid          -- ChunkInvalid
  | otherErr (e : Nat)    -- unexpected: returned immediately
deriving DecidableEq, Repr

inductive SCAction where
  | rename (k : Nat)      -- the k-th os.Rename(tmp, p) call
  | removeDest (iter : Nat)
  | removeTmp (iter : Nat)
  | sleepMs (n : Nat)
deriving DecidableEq, Repr

structure RenameEnv where
  renameErr : Nat → Option Nat      -- outcome of os.Rename attempt k (none = success)
  statIsNotExist : Nat → Bool       -- os.IsNotExist(stat err) at iteration j
  validate : Nat → ValidateOutcome  -- validation outcome at iteration j
  removeTmpErr : Nat → Option Nat   -- outcome of os.Remove(tmp) at iteration j

inductive StoreResult where
  | success
  | failure (e : Nat)
deriving DecidableEq, Repr

/-- The `for err != nil` loop, by remaining retries.  `err` is the error
of the last rename attempt. -/
def storeLoop (env : RenameEnv) :
    Nat → Nat → Nat → List SCAction → StoreResult × List SCAction
  | 0, iter, err, tr =>
    if env.statIsNotExist iter then (.failure err, tr)
    else
      match env.validate iter with
      | .chunkInvalid => (.failure err, tr ++ [.removeDest iter])
      | .valid =>
        match env.removeTmpErr iter with
        | none => (.success, tr ++ [.removeTmp iter])
        | some _ => (.failure err, tr ++ [.removeTmp iter])
      | .otherErr e => (.failure e, tr)
  | r + 1, iter, err, tr =>
    if env.statIsNotExist iter then
      match env.renameErr (iter + 1) with
      | none => (.success, tr ++ [.sleepMs 200, .rename (iter + 1)])
      | some e2 =>
        storeLoop env r (iter + 1) e2 (tr ++ [.sleepMs 200, .rename (iter + 1)])
    else
      match env.validate iter with
      | .chunkInvalid =>
        match env.renameErr (iter + 1) with
        | none =>
          (.success, tr ++ [.removeDest iter, .sleepMs 200, .rename (iter + 1)])
        | some e2 =>
          storeLoop env r (iter + 1) e2
            (tr ++ [.removeDest iter, .sleepMs 200, .rename (iter + 1)])
      | .valid =>
        match env.removeTmpErr iter with
        | none => (.success, tr ++ [.removeTmp iter])
        | some _ =>
          match env.renameErr (iter + 1) with
          | none =>
            (.success, tr ++ [.removeTmp iter, .sleepMs 200, .rename (iter + 1)])
          | some e2 =>
            storeLoop env r (iter + 1) e2
              (tr ++ [.removeTmp iter, .sleepMs 200, .rename (iter + 1)])
      | .otherErr e => (.failure e, tr)

/-- `LocalStore.StoreChunk` from the first rename on: one rename, then
the retry loop with `retriesLeft = 10`. -/
def StoreChunkRename (env : RenameEnv) : StoreResult × List SCAction :=
  match env.renameErr 0 with
  | none => (.success, [.rename 0])
  | some e => storeLoop env 10 0 e [.rename 0]

/-! ## The early-exist check of `LocalStore.StoreChunk` (`os.IsExist`) -/

/-- The error class of a Go fs error, as tested by `os.IsExist` /
`os.IsNotExist`. -/
inductive FsErrClass where
  | noErr | exist | notExist | permission | other
deriving DecidableEq, Repr

/-- The outcomes `os.Stat` can produce: the file's info, or a
`*PathError` wrapping a syscall error such as ENOENT or EACCES.  No
stat outcome is in the `ErrExist` class. -/
inductive StatOutcome where
  | found | errNotExist | errPermission | errOther
deriving DecidableEq, Repr

def statErrClass : StatOutcome → FsErrClass
  | .found => .noErr
  | .errNotExist => .notExist
  | .errPermission => .permission
  | .errOther => .other

/-- `os.IsExist`: true exactly for the `ErrExist` class. -/
def osIsExist : FsErrClass → Bool
  | .exist => true
  | _ => false

/-- The head of `LocalStore.StoreChunk`: `_, err = os.Stat(p); if
os.IsExist(err) { return nil }`.  Returns `true` when the function goes
on to create and write the temp file. -/
def storeChunkCreatesTemp (st : StatOutcome) : Bool :=
  if osIsExist (statErrClass st) then false else true

/-! ## `GCSStore.HasChunk` -/

/-- Outcomes of `s.bucket.Object(name).Attrs(ctx)`. -/
inductive GcsAttrsOutcome where
  | ok
  | errNotExist        -- storage.ErrObjectNotExist
  | errNetwork (e : Nat)  -- transient/backend failure
deriving DecidableEq, Repr

/-- `GCSStore.HasChunk`: `_, err := ...Attrs(ctx); return err == nil, nil`. -/
def gcsHasChunk (attrs : GcsAttrsOutcome) : Bool × Option Nat :=
  (match attrs with | .ok => true | _ => false, none)

/-! ## Store-location parsing (`store_utils.go`)

The store values these functions build are modelled by their shape:
leaf stores (`NewLocalStore` / remote backends), failover groups of
leaves, a router over groups, and an optional cache wrapper.
Construction never fails in the model (store-creation errors are
environment I/O).  The scheme is the part of the location before
`"://"` (a bare path has no scheme and falls to the `default` branch,
`NewLocalStore`). -/

inductive BaseStore where
  | localStore (dir : List Char) (updateTimes : Bool)
  | remote (scheme : List Char) (loc : List Char)
deriving DecidableEq, Repr

inductive GroupStore where
  | single (s : BaseStore)
  | failoverGroup (members : List BaseStore)
deriving DecidableEq, Repr

structure RouterStore where
  stores : List GroupStore
deriving DecidableEq, Repr

inductive TopStore where
  | plain (r : RouterStore)
  | withCache (r : RouterStore) (cacheStore : BaseStore)
deriving DecidableEq, Repr

def schemeSplit : List Char → Option (List Char)
  | [] => none
  | ':' :: '/' :: '/' :: _ => some []
  | c :: rest => (schemeSplit rest).map (fun s => c :: s)

def schemeOf (loc : List Char) : List Char :=
  (schemeSplit loc).getD []

/-- `StoreFromLocation`: scheme dispatch; the `default` branch is
`NewLocalStore(location, opt)` whose `UpdateTimes` field has its zero
value `false`. -/
def StoreFromLocation (loc : List Char) : BaseStore :=
  let sch := schemeOf loc
  if sch = "ssh".toList ∨ sch = "sftp".toList ∨ sch = "http".toList ∨
      sch = "https".toList ∨ sch = "s3+http".toList ∨
      sch = "s3+https".toList ∨ sch = "gs".toList then
    .remote sch loc
  else
    .localStore loc false

/-- `storeGroup`: split on `|` into a failover group, or a single store. -/
def storeGroup (loc : List Char) : GroupStore :=
  if '|' ∈ loc then
    .failoverGroup ((splitCh '|' loc).map StoreFromLocation)
  else
    .single (StoreFromLocation loc)

/-- `MultiStoreWithRouter`: the loop `stores = append(stores,
storeGroup(location))` followed by `NewStoreRouter(stores...)`. -/
def MultiStoreWithRouter (locs : List (List Char)) : RouterStore :=
  ⟨locs.foldl (fun stores loc => stores ++ [storeGroup loc]) []⟩

/-- The claim's reading of `MultiStoreWithRouter`, written from the spec
sentence: locations with a `|` become failover groups of their members,
others are initialized directly, and the results form a router in the
order given. -/
def multiStoreWithRouterSpec (locs : List (List Char)) : RouterStore :=
  ⟨locs.map (fun loc =>
    if '|' ∈ loc then
      GroupStore.failoverGroup ((splitCh '|' loc).map StoreFromLocation)
    else
      GroupStore.single (StoreFromLocation loc))⟩

/-- `MultiStoreWithCache`.  Go's
`if ls, ok := cache.(LocalStore); ok { ls.UpdateTimes = true }`
type-asserts the interface into the value copy `ls` and mutates the
copy; the copy is then dropped and the original `cache` value is
wrapped by `NewCache(store, cache)`. -/
def MultiStoreWithCache (cacheLoc : List Char) (locs : List (List Char)) :
    TopStore :=
  let router := MultiStoreWithRouter locs
  if cacheLoc = [] then .plain router
  else
    let cacheStore := StoreFromLocation cacheLoc
    let _ls : Option BaseStore :=
      match cacheStore with
      | .localStore d _ => some (BaseStore.localStore d true)
      | _ => none
    .withCache router cacheStore

/-! ## The Windows tar path (`tar_windows.go`) -/

/-- What `os.FileInfo` reports for a node: its kind, its real mode bits
and mtime.  The Windows `tar` reads only the kind and mtime. -/
structure WinFileInfo where
  isDir : Bool
  isRegular : Bool
  modeBits : Nat
  mtime : Nat
deriving DecidableEq, Repr

/-- The fields of the emitted `CaFormatEntry` relevant here (feature
flags are constants defined outside the given sources and are omitted). -/
structure FormatEntry where
  size : Nat
  uid : Nat
  gid : Nat
  mode : Nat
  mtime : Nat
deriving DecidableEq, Repr

/-- The entry-synthesis part of the Windows `tar`: unsupported node
kinds are skipped; otherwise `uid = gid = 1000` and
`mode = 0x81a4` (`0o100644`), or `0x41c0` for directories, regardless
of the node's real metadata. -/
def tarEntryWindows (info : WinFileInfo) : Option FormatEntry :=
  if ¬ (info.isDir ∨ info.isRegular) then none
  else
    some { size := 64, uid := 1000, gid := 1000,
           mode := if info.isDir then 0x41c0 else 0x81a4,
           mtime := info.mtime }

-- THEOREMS BELOW ------------------------------------------------------

/-- The match-scan never advances `dp` to `written` or beyond. -/
theorem matchLenF_le (index chunks : List IndexChunk) (written : Nat) :
    ∀ fuel dp sp, matchLenF index chunks written fuel dp sp ≤ written - dp := by
  intro fuel
  induction fuel with
  | zero => intro dp sp; simp [matchLenF]
  | succ n ih =>
    intro dp sp
    simp only [matchLenF]
    split
    · omega
    · split
      · omega
      · have := ih (dp + 1) (sp + 1)
        rename_i h _
        omega

/-- A nonempty result of `maxMatchFrom` covers only positions `< written`:
it is the slice `index[p:p+len]` with `p + len ≤ written`. -/
theorem maxMatchFrom_bound (s : SelfSeed) (chunks : List IndexChunk) (p : Nat)
    (h : (s.maxMatchFrom chunks p).length ≠ 0) :
    p + (s.maxMatchFrom chunks p).length ≤ s.written := by
  unfold SelfSeed.maxMatchFrom at *
  split at h
  · simp at h
  · rename_i hchunks
    rw [if_neg hchunks]
    have hL := matchLenF_le s.index chunks s.written (s.written - p) p 0
    simp only [matchLen] at *
    rw [List.length_drop, List.length_take] at h ⊢
    omega

/-- Invariant of the best-match fold in `LongestMatchWith`: any recorded
winner is a `maxMatchFrom` result, hence covers only positions
`< written`. -/
theorem longestMatch_fold_inv (s : SelfSeed) (chunks : List IndexChunk) :
    ∀ (ps : List Nat) (acc : Nat × Option (Nat × List IndexChunk)),
      (∀ p m, acc.2 = some (p, m) → m.length = 0 ∨ p + m.length ≤ s.written) →
      ∀ p m,
        (ps.foldl
            (fun acc p =>
              let m := s.maxMatchFrom chunks p
              if acc.1 < m.length then (m.length, some (p, m)) else acc)
            acc).2 = some (p, m) →
        m.length = 0 ∨ p + m.length ≤ s.written := by
  intro ps
  induction ps with
  | nil => intro acc hacc p m h; exact hacc p m h
  | cons q qs ih =>
    intro acc hacc p m h
    refine ih _ ?_ p m h
    intro p' m' hacc'
    simp only at hacc'
    split at hacc'
    · cases hacc'
      rcases Nat.eq_zero_or_pos (s.maxMatchFrom chunks q).length with h0 | hpos
      · exact Or.inl h0
      · exact Or.inr (maxMatchFrom_bound s chunks q (by omega))
    · exact hacc p' m' hacc'

/-- C1: for every sequence of `selfSeed.add` calls and every
`LongestMatchWith` query, the returned match `(p, m)` covers only index
positions strictly below the current `written` pointer — the seed never
reports a match whose chunks have not all been confirmed written. -/
theorem selfSeed_match_below_written (index : List IndexChunk)
    (segs : List (Nat × Nat)) (chunks : List IndexChunk)
    (p : Nat) (m : List IndexChunk)
    (h : ((addAll index segs).LongestMatchWith chunks).2 = some (p, m)) :
    ∀ i, p ≤ i → i < p + m.length → i < (addAll index segs).written := by
  set s := addAll index segs with hs
  unfold SelfSeed.LongestMatchWith at h
  split at h
  · simp at h
  · generalize hl : alookup (idAt chunks 0) s.pos = o at h
    match o with
    | none => simp at h
    | some ps =>
      simp only at h
      have := longestMatch_fold_inv s chunks ps (0, none) (by simp) p m h
      intro i hpi him
      omega

/-- Witness for C1 at a concrete seed state and query. -/
theorem selfSeed_match_below_written_witness :
    ((addAll [⟨1, 0, 4⟩, ⟨2, 4, 4⟩, ⟨3, 8, 4⟩] [(0, 2)]).LongestMatchWith
        [⟨2, 0, 4⟩, ⟨3, 4, 4⟩]).2 = some (1, [⟨2, 4, 4⟩, ⟨3, 8, 4⟩]) ∧
      (∀ i, 1 ≤ i → i < 1 + ([⟨2, 4, 4⟩, ⟨3, 8, 4⟩] : List IndexChunk).length →
        i < (addAll [⟨1, 0, 4⟩, ⟨2, 4, 4⟩, ⟨3, 8, 4⟩] [(0, 2)]).written) :=
  ⟨by decide,
    selfSeed_match_below_written [⟨1, 0, 4⟩, ⟨2, 4, 4⟩, ⟨3, 8, 4⟩] [(0, 2)]
      [⟨2, 0, 4⟩, ⟨3, 4, 4⟩] 1 [⟨2, 4, 4⟩, ⟨3, 8, 4⟩] (by decide)⟩

/-- `alookup` finds an actual binding. -/
theorem alookup_eq_some_mem {α β : Type} [DecidableEq α] {k : α} {v : β} :
    ∀ {l : List (α × β)}, alookup k l = some v → (k, v) ∈ l := by
  intro l
  induction l with
  | nil => intro h; simp [alookup] at h
  | cons kv rest ih =>
    intro h
    rcases kv with ⟨k', v'⟩
    simp only [alookup] at h
    split at h
    · cases h; subst_vars; exact List.mem_cons_self _ _
    · exact List.mem_cons_of_mem _ (ih h)

/-- A present key is found by `alookup`. -/
theorem mem_alookup_ne_none {α β : Type} [DecidableEq α] {k : α} {v : β} :
    ∀ {l : List (α × β)}, (k, v) ∈ l → alookup k l ≠ none := by
  intro l
  induction l with
  | nil => intro h; simp at h
  | cons kv rest ih =>
    intro h
    rcases kv with ⟨k', v'⟩
    simp only [alookup]
    split
    · simp
    · rename_i hne
      rcases List.mem_cons.mp h with h1 | h2
      · cases h1; simp at hne
      · exact ih h2

theorem alookup_aerase {α β : Type} [DecidableEq α] (k k' : α)
    (l : List (α × β)) :
    alookup k' (aerase k l) = if k' = k then none else alookup k' l := by
  induction l with
  | nil => simp [aerase, alookup]
  | cons kv rest ih =>
    rcases kv with ⟨a, b⟩
    simp only [aerase, alookup]
    by_cases hak : a = k
    · rw [if_pos hak, ih]
      by_cases hk : k' = k
      · simp [hk]
      · rw [if_neg hk, if_neg hk, if_neg (fun h : a = k' => hk (h ▸ hak.symm ▸ rfl))]
    · rw [if_neg hak]
      simp only [alookup]
      by_cases hk : k' = k
      · subst hk
        rw [if_pos rfl, if_neg (fun h : a = k' => hak h), ih, if_pos rfl]
      · rw [if_neg hk, ih, if_neg hk]

theorem alookup_aset {α β : Type} [DecidableEq α] (k k' : α) (v : β)
    (l : List (α × β)) :
    alookup k' (aset k v l) = if k' = k then some v else alookup k' l := by
  simp only [aset, alookup]
  by_cases hk : k' = k
  · rw [if_pos (hk ▸ rfl), if_pos hk]
  · rw [if_neg (fun h : k = k' => hk h.symm), if_neg hk, alookup_aerase,
      if_neg hk]

theorem mem_aerase {α β : Type} [DecidableEq α] {k : α} {kv : α × β} :
    ∀ {l : List (α × β)}, kv ∈ aerase k l ↔ (kv ∈ l ∧ kv.1 ≠ k) := by
  intro l
  induction l with
  | nil => simp [aerase]
  | cons hd rest ih =>
    simp only [aerase]
    by_cases hhd : hd.1 = k
    · rw [if_pos hhd, ih]
      constructor
      · rintro ⟨h1, h2⟩; exact ⟨List.mem_cons_of_mem _ h1, h2⟩
      · rintro ⟨h1, h2⟩
        rcases List.mem_cons.mp h1 with rfl | h1
        · exact absurd hhd h2
        · exact ⟨h1, h2⟩
    · rw [if_neg hhd]
      constructor
      · intro h
        rcases List.mem_cons.mp h with rfl | h
        · exact ⟨List.mem_cons_self _ _, hhd⟩
        · rcases ih.mp h with ⟨h1, h2⟩
          exact ⟨List.mem_cons_of_mem _ h1, h2⟩
      · rintro ⟨h1, h2⟩
        rcases List.mem_cons.mp h1 with rfl | h1
        · exact List.mem_cons_self _ _
        · exact List.mem_cons_of_mem _ (ih.mpr ⟨h1, h2⟩)

theorem aerase_length_le {α β : Type} [DecidableEq α] (k : α) :
    ∀ (l : List (α × β)), (aerase k l).length ≤ l.length := by
  intro l
  induction l with
  | nil => simp [aerase]
  | cons hd rest ih =>
    simp only [aerase]
    by_cases hhd : hd.1 = k
    · rw [if_pos hhd]; simpa using Nat.le_succ_of_le ih
    · rw [if_neg hhd]; simpa using ih

/-- Deleting a key that `alookup` finds strictly shrinks the list. -/
theorem aerase_length_lt {α β : Type} [DecidableEq α] {k : α} {v : β} :
    ∀ {l : List (α × β)}, alookup k l = some v →
      (aerase k l).length < l.length := by
  intro l
  induction l with
  | nil => intro h; simp [alookup] at h
  | cons hd rest ih =>
    intro h
    rcases hd with ⟨a, b⟩
    simp only [alookup] at h
    simp only [aerase]
    by_cases hak : a = k
    · rw [if_pos hak]
      exact Nat.lt_succ_of_le (aerase_length_le k rest)
    · rw [if_neg hak] at h ⊢
      simpa using ih h

/-- Fuel `cache.length` is enough for the pop loop: every iteration
deletes at least one binding, and once the cache is empty the loop
would stop anyway, so any fuel of at least `cache.length` computes the
same result — the fuelled definition coincides with Go's unbounded
`for` loop. -/
theorem addLoopF_fuel (index : List IndexChunk) :
    ∀ (fuel fuel2 : Nat) (pos : List (CID × List Nat)) (written : Nat)
      (cache : List (Nat × Nat)),
      cache.length ≤ fuel → cache.length ≤ fuel2 →
      addLoopF index fuel pos written cache =
        addLoopF index fuel2 pos written cache := by
  intro fuel
  induction fuel with
  | zero =>
    intro fuel2 pos written cache h1 h2
    have hc : cache = [] := List.eq_nil_of_length_eq_zero (Nat.le_zero.mp h1)
    subst hc
    cases fuel2 with
    | zero => rfl
    | succ m => simp [addLoopF, alookup]
  | succ n ih =>
    intro fuel2 pos written cache h1 h2
    cases hlk : alookup written cache with
    | none =>
      cases fuel2 with
      | zero =>
        have hc : cache = [] :=
          List.eq_nil_of_length_eq_zero (Nat.le_zero.mp h2)
        subst hc
        simp [addLoopF, alookup]
      | succ m => simp [addLoopF, hlk]
    | some v =>
      have hmem := alookup_eq_some_mem hlk
      cases fuel2 with
      | zero =>
        exfalso
        have hc : cache = [] :=
          List.eq_nil_of_length_eq_zero (Nat.le_zero.mp h2)
        subst hc
        simp at hmem
      | succ m =>
        simp only [addLoopF, hlk]
        have hlt := aerase_length_lt hlk
        exact ih m (recordRange index pos written v) v (aerase written cache)
          (by omega) (by omega)

theorem posFind_posAppend (pos : List (CID × List Nat)) (c0 : CID) (j : Nat)
    (c : CID) :
    posFind (posAppend pos c0 j) c =
      if c = c0 then posFind pos c0 ++ [j] else posFind pos c := by
  simp only [posAppend, posFind, alookup_aset]
  by_cases hc : c = c0
  · simp [hc]
  · simp [hc]

theorem posFind_recordRange_aux (index : List IndexChunk) :
    ∀ (n a : Nat) (pos : List (CID × List Nat)) (c : CID) (i : Nat),
      i ∈ posFind
          ((List.range' a n).foldl (fun p j => posAppend p (idAt index j) j)
            pos) c ↔
        (i ∈ posFind pos c ∨ (a ≤ i ∧ i < a + n ∧ idAt index i = c)) := by
  intro n
  induction n with
  | zero =>
    intro a pos c i
    simp only [List.range', List.foldl_nil]
    constructor
    · exact Or.inl
    · rintro (h | ⟨h1, h2, h3⟩)
      · exact h
      · omega
  | succ m ih =>
    intro a pos c i
    rw [List.range'_succ, List.foldl_cons, ih]
    rw [posFind_posAppend]
    by_cases hc : c = idAt index a
    · rw [if_pos hc, List.mem_append, List.mem_singleton]
      constructor
      · rintro ((h | rfl) | h)
        · exact Or.inl (hc ▸ h)
        · exact Or.inr ⟨Nat.le_refl _, by omega, hc.symm⟩
        · rcases h with ⟨h1, h2, h3⟩
          exact Or.inr ⟨by omega, by omega, h3⟩
      · rintro (h | ⟨h1, h2, h3⟩)
        · exact Or.inl (Or.inl (hc ▸ h))
        · rcases Nat.eq_or_lt_of_le h1 with rfl | hlt
          · exact Or.inl (Or.inr rfl)
          · exact Or.inr ⟨hlt, by omega, h3⟩
      
    · rw [if_neg hc]
      constructor
      · rintro (h | ⟨h1, h2, h3⟩)
        · exact Or.inl h
        · exact Or.inr ⟨by omega, by omega, h3⟩
      · rintro (h | ⟨h1, h2, h3⟩)
        · exact Or.inl h
        · rcases Nat.eq_or_lt_of_le h1 with rfl | hlt
          · exact absurd h3.symm hc
          · exact Or.inr ⟨hlt, by omega, h3⟩

/-- Membership in the position map after the record loop `[a, b)`. -/
theorem posFind_recordRange (index : List IndexChunk)
    (pos : List (CID × List Nat)) (a b : Nat) (c : CID) (i : Nat) :
    i ∈ posFind (recordRange index pos a b) c ↔
      (i ∈ posFind pos c ∨ (a ≤ i ∧ i < b ∧ idAt index i = c)) := by
  unfold recordRange
  rw [posFind_recordRange_aux]
  constructor
  · rintro (h | ⟨h1, h2, h3⟩)
    · exact Or.inl h
    · exact Or.inr ⟨h1, by omega, h3⟩
  · rintro (h | ⟨h1, h2, h3⟩)
    · exact Or.inl h
    · exact Or.inr ⟨h1, by omega, h3⟩

theorem Reach_mono {segs segs' : List (Nat × Nat)}
    (hsub : ∀ x ∈ segs, x ∈ segs') :
    ∀ {w : Nat}, Reach segs w → Reach segs' w := by
  intro w h
  induction h with
  | zero => exact Reach.zero
  | step hr hmem ih => exact Reach.step ih (hsub _ hmem)

/-- The pop loop of `selfSeed.add` preserves the seed invariant and only
advances the write pointer. -/
theorem addLoopF_inv (index : List IndexChunk) (done : List (Nat × Nat))
    (hwf : SegWF done) (hdisj : SegDisj done) :
    ∀ (fuel : Nat) (pos : List (CID × List Nat)) (written : Nat)
      (cache : List (Nat × Nat)),
      cache.length ≤ fuel →
      PosOK index pos written →
      CacheProv done cache →
      NoStale written cache →
      Reach done written →
      Coverage done written →
      PendingOrPassed done written cache →
      SeedInv index done (addLoopF index fuel pos written cache) ∧
        written ≤ (addLoopF index fuel pos written cache).written := by
  intro fuel
  induction fuel with
  | zero =>
    intro pos written cache hlen hpos hprov hstale hreach hcov hpp
    have hc : cache = [] := List.eq_nil_of_length_eq_zero (Nat.le_zero.mp hlen)
    subst hc
    simp only [addLoopF]
    exact ⟨⟨rfl, hpos, hprov, hstale, rfl, hreach, hcov, hpp⟩, Nat.le_refl _⟩
  | succ n ih =>
    intro pos written cache hlen hpos hprov hstale hreach hcov hpp
    simp only [addLoopF]
    cases hlk : alookup written cache with
    | none =>
      exact ⟨⟨rfl, hpos, hprov, hstale, hlk, hreach, hcov, hpp⟩, Nat.le_refl _⟩
    | some v =>
      have hmem : (written, v) ∈ cache := alookup_eq_some_mem hlk
      obtain ⟨sg, hsgdone, hsgeq⟩ := hprov _ hmem
      injection hsgeq with hsg1 hv
      have hw2 : written ≤ sg.2 := by
        have := hwf sg hsgdone; omega
      have hwv : written < v := by omega
      have hfuel : (aerase written cache).length ≤ n := by
        have := aerase_length_lt hlk; omega
      have hpos' : PosOK index (recordRange index pos written v) v := by
        intro c i
        rw [posFind_recordRange]
        constructor
        · rintro (h | ⟨h1, h2, h3⟩)
          · rcases (hpos c i).mp h with ⟨hi, hid⟩
            exact ⟨by omega, hid⟩
          · exact ⟨h2, h3⟩
        · rintro ⟨hi, hid⟩
          by_cases hiw : i < written
          · exact Or.inl ((hpos c i).mpr ⟨hiw, hid⟩)
          · exact Or.inr ⟨by omega, hi, hid⟩
      have hprov' : CacheProv done (aerase written cache) := by
        intro kv hkv
        exact hprov kv (mem_aerase.mp hkv).1
      have hstale' : NoStale v (aerase written cache) := by
        intro kv hkv
        obtain ⟨hkvc, hkvne⟩ := mem_aerase.mp hkv
        have hkvw : written ≤ kv.1 := hstale kv hkvc
        by_contra hlt
        push_neg at hlt
        obtain ⟨sg', hsg'done, hsg'eq⟩ := hprov kv hkvc
        have hsg'1 : kv.1 = sg'.1 := by rw [hsg'eq]
        have hsg'wf := hwf sg' hsg'done
        have hne : sg ≠ sg' := by
          intro h
          rw [← h] at hsg'1
          omega
        rcases hdisj sg hsgdone sg' hsg'done hne with h | h <;> omega
      have hreach' : Reach done v := by
        have hm : (written, sg.2) ∈ done := by
          have heta : (written, sg.2) = sg := by
            rw [hsg1]
          rw [heta]; exact hsgdone
        exact hv ▸ Reach.step hreach hm
      have hcov' : Coverage done v := by
        intro i hi
        by_cases hiw : i < written
        · exact hcov i hiw
        · exact ⟨sg, hsgdone, by omega, by omega⟩
      have hpp' : PendingOrPassed done v (aerase written cache) := by
        intro sg' hsg'
        rcases hpp sg' hsg' with hin | hpass
        · by_cases h1 : sg'.1 = written
          · by_cases hss : sg' = sg
            · right; rw [hss]; omega
            · have hd := hdisj sg hsgdone sg' hsg' (fun h => hss h.symm)
              have hwfsg' := hwf sg' hsg'
              rcases hd with h | h <;> omega
          · left
            exact mem_aerase.mpr ⟨hin, h1⟩
        · right; omega
      have hrec := ih (recordRange index pos written v) v (aerase written cache)
        hfuel hpos' hprov' hstale' hreach' hcov' hpp'
      exact ⟨hrec.1, Nat.le_trans (Nat.le_of_lt hwv) hrec.2⟩

/-- One `selfSeed.add` call preserves the seed invariant, extending the
set of added segments. -/
theorem SelfSeed_add_inv (index : List IndexChunk)
    (segs done : List (Nat × Nat)) (sg : Nat × Nat) (s : SelfSeed)
    (hsub : ∀ x ∈ done, x ∈ segs) (hsg : sg ∈ segs) (hnd : sg ∉ done)
    (hwf : SegWF segs) (hdisj : SegDisj segs)
    (hinv : SeedInv index done s) :
    SeedInv index (done ++ [sg]) (s.add sg) := by
  obtain ⟨hidx, hpos, hprov, hstale, hfix, hreach, hcov, hpp⟩ := hinv
  have hsub' : ∀ x ∈ done ++ [sg], x ∈ segs := by
    intro x hx
    rcases List.mem_append.mp hx with hx | hx
    · exact hsub x hx
    · rcases List.mem_singleton.mp hx with rfl
      exact hsg
  have hwf' : SegWF (done ++ [sg]) := fun x hx => hwf x (hsub' x hx)
  have hdisj' : SegDisj (done ++ [sg]) := fun a ha b hb hne =>
    hdisj a (hsub' a ha) b (hsub' b hb) hne
  -- The new cache after `s.cache[segment.first] = segment.last + 1`.
  have hwsg : s.written ≤ sg.1 := by
    by_contra hlt
    push_neg at hlt
    obtain ⟨sg'', hsg''done, h1, h2⟩ := hcov sg.1 hlt
    have hne : sg ≠ sg'' := fun h => hnd (h ▸ hsg''done)
    have hwfsg : sg.1 ≤ sg.2 := hwf sg hsg
    rcases hdisj sg hsg sg'' (hsub sg'' hsg''done) hne with h | h <;> omega
  have hprov1 : CacheProv (done ++ [sg]) (aset sg.1 (sg.2 + 1) s.cache) := by
    intro kv hkv
    rcases List.mem_cons.mp hkv with rfl | hkv
    · exact ⟨sg, List.mem_append.mpr (Or.inr (List.mem_singleton.mpr rfl)), rfl⟩
    · obtain ⟨sg', h1, h2⟩ := hprov kv (mem_aerase.mp hkv).1
      exact ⟨sg', List.mem_append.mpr (Or.inl h1), h2⟩
  have hstale1 : NoStale s.written (aset sg.1 (sg.2 + 1) s.cache) := by
    intro kv hkv
    rcases List.mem_cons.mp hkv with rfl | hkv
    · exact hwsg
    · exact hstale kv (mem_aerase.mp hkv).1
  have hreach1 : Reach (done ++ [sg]) s.written :=
    Reach_mono (fun x hx => List.mem_append.mpr (Or.inl hx)) hreach
  have hcov1 : Coverage (done ++ [sg]) s.written := by
    intro i hi
    obtain ⟨sg', h1, h2, h3⟩ := hcov i hi
    exact ⟨sg', List.mem_append.mpr (Or.inl h1), h2, h3⟩
  have hpp1 : PendingOrPassed (done ++ [sg]) s.written
      (aset sg.1 (sg.2 + 1) s.cache) := by
    intro sg' hsg'
    rcases List.mem_append.mp hsg' with hsg' | hsg'
    · rcases hpp sg' hsg' with hin | hpass
      · left
        by_cases h1 : sg'.1 = sg.1
        · exfalso
          have hne : sg ≠ sg' := fun h => hnd (h ▸ hsg')
          have hwfsg : sg.1 ≤ sg.2 := hwf sg hsg
          have hwfsg' : sg'.1 ≤ sg'.2 := hwf sg' (hsub sg' hsg')
          rcases hdisj sg hsg sg' (hsub sg' hsg') hne with h | h <;> omega
        · exact List.mem_cons_of_mem _ (mem_aerase.mpr ⟨hin, h1⟩)
      · right; exact hpass
    · rcases List.mem_singleton.mp hsg' with rfl
      left; exact List.mem_cons_self _ _
  have hres := addLoopF_inv index (done ++ [sg]) hwf' hdisj'
    (aset sg.1 (sg.2 + 1) s.cache).length s.pos s.written
    (aset sg.1 (sg.2 + 1) s.cache) (Nat.le_refl _) hpos hprov1 hstale1
    hreach1 hcov1 hpp1
  rw [SelfSeed.add, hidx]
  exact hres.1

/-- Folding `add` over the remaining segments carries the invariant to
the full segment list. -/
theorem addAll_go (index : List IndexChunk) (segs : List (Nat × Nat))
    (hwf : SegWF segs) (hdisj : SegDisj segs) (hnd : segs.Nodup) :
    ∀ (rest done : List (Nat × Nat)) (s : SelfSeed),
      done ++ rest = segs →
      SeedInv index done s →
      SeedInv index segs (rest.foldl SelfSeed.add s) := by
  intro rest
  induction rest with
  | nil =>
    intro done s hsplit hinv
    rw [List.append_nil] at hsplit
    rw [List.foldl_nil]
    exact hsplit ▸ hinv
  | cons sg rest' ih =>
    intro done s hsplit hinv
    rw [List.foldl_cons]
    have hsgm : sg ∈ segs := by
      rw [← hsplit]
      exact List.mem_append.mpr (Or.inr (List.mem_cons_self _ _))
    have hsub : ∀ x ∈ done, x ∈ segs := by
      intro x hx
      rw [← hsplit]
      exact List.mem_append.mpr (Or.inl hx)
    have hsgnd : sg ∉ done := by
      intro hin
      have hnd' : (done ++ sg :: rest').Nodup := hsplit ▸ hnd
      rcases List.nodup_append.mp hnd' with ⟨_, _, hdisj2⟩
      exact hdisj2 hin (List.mem_cons_self _ _)
    have hstep := SelfSeed_add_inv index segs done sg s hsub hsgm hsgnd
      hwf hdisj hinv
    refine ih (done ++ [sg]) (s.add sg) ?_ hstep
    rw [List.append_assoc, List.singleton_append]
    exact hsplit

/-- C2: after any sequence of `selfSeed.add` calls over well-formed,
pairwise-disjoint segments of the index, `written` is the length of the
maximal contiguous prefix of the index whose segments have all been
added (the greatest chainable prefix end, `Reach`), and `pos` contains
exactly the index positions below `written`, filed under the IDs of the
corresponding index chunks. -/
theorem selfSeed_add_written_prefix (index : List IndexChunk)
    (segs : List (Nat × Nat))
    (hwf : SegWF segs) (hdisj : SegDisj segs) (hnd : segs.Nodup)
    (hlen : ∀ sg ∈ segs, sg.2 < index.length) :
    (Reach segs (addAll index segs).written ∧
      ∀ w, Reach segs w → w ≤ (addAll index segs).written) ∧
    ∀ c i, i ∈ posFind (addAll index segs).pos c ↔
      (i < (addAll index segs).written ∧ idAt index i = c) := by
  have hbase : SeedInv index [] (newSelfSeed index) := by
    refine ⟨rfl, ?_, ?_, ?_, rfl, Reach.zero, ?_, ?_⟩
    · intro c i
      simp [posFind, alookup, newSelfSeed]
    · intro kv hkv; simp [newSelfSeed] at hkv
    · intro kv hkv; simp [newSelfSeed] at hkv
    · intro i hi; simp [newSelfSeed] at hi
    · intro sg hsg; simp at hsg
  have hinv := addAll_go index segs hwf hdisj hnd segs [] (newSelfSeed index)
    rfl hbase
  obtain ⟨hidx, hpos, hprov, hstale, hfix, hreach, hcov, hpp⟩ := hinv
  refine ⟨⟨hreach, ?_⟩, hpos⟩
  intro w hw
  induction hw with
  | zero => exact Nat.zero_le _
  | step hr hmem ihw =>
    rename_i w' l'
    rcases hpp (w', l') hmem with hin | hpass
    · exfalso
      have h1 : (addAll index segs).written ≤ w' := hstale _ hin
      have h2 : w' = (addAll index segs).written := Nat.le_antisymm ihw h1
      exact mem_alookup_ne_none (h2 ▸ hin) hfix
    · exact hpass

/-- Witness for C2: two segments added out of order over a 4-chunk index. -/
theorem selfSeed_add_written_prefix_witness :
    (Reach [(2, 3), (0, 1)]
        (addAll [⟨5, 0, 1⟩, ⟨6, 1, 1⟩, ⟨7, 2, 1⟩, ⟨8, 3, 1⟩]
          [(2, 3), (0, 1)]).written ∧
      ∀ w, Reach [(2, 3), (0, 1)] w →
        w ≤ (addAll [⟨5, 0, 1⟩, ⟨6, 1, 1⟩, ⟨7, 2, 1⟩, ⟨8, 3, 1⟩]
          [(2, 3), (0, 1)]).written) ∧
    ∀ c i,
      i ∈ posFind (addAll [⟨5, 0, 1⟩, ⟨6, 1, 1⟩, ⟨7, 2, 1⟩, ⟨8, 3, 1⟩]
          [(2, 3), (0, 1)]).pos c ↔
        (i < (addAll [⟨5, 0, 1⟩, ⟨6, 1, 1⟩, ⟨7, 2, 1⟩, ⟨8, 3, 1⟩]
            [(2, 3), (0, 1)]).written ∧
          idAt [⟨5, 0, 1⟩, ⟨6, 1, 1⟩, ⟨7, 2, 1⟩, ⟨8, 3, 1⟩] i = c) :=
  selfSeed_add_written_prefix [⟨5, 0, 1⟩, ⟨6, 1, 1⟩, ⟨7, 2, 1⟩, ⟨8, 3, 1⟩]
    [(2, 3), (0, 1)] (by decide) (by decide) (by decide) (by decide)

/-- C8: the early-return branch of `LocalStore.StoreChunk` guarded by
`os.IsExist(err)` after `os.Stat(p)` is unreachable — `os.Stat` yields
either no error or an error outside the `ErrExist` class — so a temp
file is created and written for every input chunk, existing destination
or not. -/
theorem storeChunk_existCheck_unreachable :
    ∀ st : StatOutcome, storeChunkCreatesTemp st = true := by
  intro st
  cases st <;> rfl

/-- C9: `GCSStore.HasChunk` never returns a non-nil error, and reports
`true` exactly when fetching the object attributes succeeded; any
failure, including a transient network error, is reported as the chunk
being absent. -/
theorem gcsHasChunk_never_errors :
    ∀ a : GcsAttrsOutcome,
      (gcsHasChunk a).2 = none ∧ ((gcsHasChunk a).1 = true ↔ a = .ok) := by
  intro a
  cases a <;> simp [gcsHasChunk]

/-- C7: the Windows tar path synthesizes `uid = 1000`, `gid = 1000` and
mode `0x81a4` (permission bits `0o644`) for every regular file, whatever
the node's real mode bits are. -/
theorem tarWindows_fake_metadata (info : WinFileInfo)
    (hreg : info.isRegular = true) (hdir : info.isDir = false) :
    tarEntryWindows info = some ⟨64, 1000, 1000, 0x81a4, info.mtime⟩ ∧
      0x81a4 % 512 = 0o644 := by
  refine ⟨?_, by decide⟩
  unfold tarEntryWindows
  rw [hdir, hreg]
  simp

/-- Witness for C7 at a node whose real mode bits are `0o755`. -/
theorem tarWindows_fake_metadata_witness :
    tarEntryWindows ⟨false, true, 0o755, 99⟩ =
      some ⟨64, 1000, 1000, 0x81a4, 99⟩ ∧ 0x81a4 % 512 = 0o644 :=
  tarWindows_fake_metadata ⟨false, true, 0o755, 99⟩ rfl rfl

/-- C5 (code bug): `MultiStoreWithCache` with a local cache location
wraps the cache store with `UpdateTimes = false`.  The
`if ls, ok := cache.(LocalStore); ok { ls.UpdateTimes = true }` block
mutates a copy obtained by the type assertion and drops it, so the
mtime-bump flag claimed by the spec is never set on the store actually
used. -/
theorem multiStoreWithCache_updateTimes_lost :
    MultiStoreWithCache "/cache".toList ["/store".toList] =
      .withCache ⟨[.single (.localStore "/store".toList false)]⟩
        (.localStore "/cache".toList false) ∧
    ∀ r d, MultiStoreWithCache "/cache".toList ["/store".toList] ≠
      .withCache r (.localStore d true) := by
  constructor
  · decide
  · intro r d h
    rw [(by decide :
      MultiStoreWithCache "/cache".toList ["/store".toList] =
        TopStore.withCache ⟨[.single (.localStore "/store".toList false)]⟩
          (.localStore "/cache".toList false))] at h
    injection h with h1 h2
    injection h2 with h3 h4
    exact Bool.noConfusion h4

theorem foldl_append_eq_map {α β : Type} (f : α → β) :
    ∀ (l : List α) (acc : List β),
      l.foldl (fun a x => a ++ [f x]) acc = acc ++ l.map f := by
  intro l
  induction l with
  | nil => intro acc; simp
  | cons x xs ih =>
    intro acc
    rw [List.foldl_cons, ih, List.map_cons]
    simp

/-- C6: `MultiStoreWithRouter` builds exactly the router described by
the spec: each location containing `|` is split on `|`, its members
initialized individually and wrapped into a failover group; a location
without `|` is initialized directly; the results form a `StoreRouter`
in the order the locations were given. -/
theorem multiStoreWithRouter_spec (locs : List (List Char)) :
    MultiStoreWithRouter locs = multiStoreWithRouterSpec locs := by
  unfold MultiStoreWithRouter multiStoreWithRouterSpec
  rw [foldl_append_eq_map]
  rfl

/-- C3 counterexample: a delete failure that IS `Missing` aborts
`LocalStore.Prune` instead of being skipped.  The first walked chunk
file is already gone (concurrent deletion), so `RemoveChunk` fails with
`ChunkMissing`; `Prune` returns that error at once, leaving the second,
prunable chunk file untouched. -/
theorem prune_missing_aborts_cex :
    localPrune ['s'] false [] []
      [⟨localNameFromID ['s'] false ⟨List.replicate 32 0⟩, false⟩,
       ⟨localNameFromID ['s'] false ⟨List.replicate 31 0 ++ [1]⟩, false⟩]
      [localNameFromID ['s'] false ⟨List.replicate 31 0 ++ [1]⟩] =
    ([localNameFromID ['s'] false ⟨List.replicate 31 0 ++ [1]⟩],
      some (.chunkMissing ⟨List.replicate 32 0⟩)) := by
  decide

/-- C3 (amended): `LocalStore.Prune` and `GCSStore.Prune` abort on the
first chunk-delete failure of any kind — `Missing` (already gone)
included — returning that error with all later entries unprocessed; no
delete failure is skipped. -/
theorem prune_aborts_on_delete_failure :
    (∀ (base : List Char) (unc : Bool) (live : List ChunkID)
        (bad : List (List Char)) (walk1 : List WalkEntry) (e : WalkEntry)
        (walk2 : List WalkEntry) (fs fs1 : List (List Char)) (err : PruneErr),
      localPrune base unc live bad walk1 fs = (fs1, none) →
      localPruneStep base unc live bad fs1 e = .error err →
      localPrune base unc live bad (walk1 ++ e :: walk2) fs = (fs1, some err)) ∧
    (∀ (pfx : List Char) (unc : Bool) (live : List ChunkID)
        (bad : List (List Char)) (names1 : List (List Char)) (nm : List Char)
        (names2 : List (List Char)) (objs objs1 : List (List Char))
        (err : PruneErr),
      gcsPrune pfx unc live bad names1 objs = (objs1, none) →
      gcsPruneStep pfx unc live bad objs1 nm = .error err →
      gcsPrune pfx unc live bad (names1 ++ nm :: names2) objs =
        (objs1, some err)) := by
  constructor
  · intro base unc live bad walk1
    induction walk1 with
    | nil =>
      intro e walk2 fs fs1 err h1 h2
      simp only [localPrune] at h1
      injection h1 with hfs hres
      subst hfs
      simp only [List.nil_append, localPrune, h2]
    | cons w walk1' ih =>
      intro e walk2 fs fs1 err h1 h2
      simp only [localPrune] at h1
      simp only [List.cons_append, localPrune]
      cases hs : localPruneStep base unc live bad fs w with
      | ok fsa =>
        rw [hs] at h1
        simp only [] at h1
        exact ih e walk2 fsa fs1 err h1 h2
      | error e0 =>
        rw [hs] at h1
        simp only [] at h1
        injection h1 with hfs hres
        exact Option.noConfusion hres
  · intro pfx unc live bad names1
    induction names1 with
    | nil =>
      intro nm names2 objs objs1 err h1 h2
      simp only [gcsPrune] at h1
      injection h1 with hfs hres
      subst hfs
      simp only [List.nil_append, gcsPrune, h2]
    | cons w names1' ih =>
      intro nm names2 objs objs1 err h1 h2
      simp only [gcsPrune] at h1
      simp only [List.cons_append, gcsPrune]
      cases hs : gcsPruneStep pfx unc live bad objs w with
      | ok objsa =>
        rw [hs] at h1
        simp only [] at h1
        exact ih nm names2 objsa objs1 err h1 h2
      | error e0 =>
        rw [hs] at h1
        simp only [] at h1
        injection h1 with hfs hres
        exact Option.noConfusion hres

/-- Witness for the amended C3 on both stores: a `ChunkMissing`
(respectively `ErrObjectNotExist`) delete failure on the first entry
aborts the prune with that error, leaving a second prunable entry in
place. -/
theorem prune_aborts_on_delete_failure_witness :
    localPrune ['t'] false [] []
        ([] ++ ⟨localNameFromID ['t'] false ⟨List.replicate 32 3⟩, false⟩ ::
          [⟨localNameFromID ['t'] false ⟨List.replicate 31 3 ++ [4]⟩, false⟩])
        [localNameFromID ['t'] false ⟨List.replicate 31 3 ++ [4]⟩] =
      ([localNameFromID ['t'] false ⟨List.replicate 31 3 ++ [4]⟩],
        some (.chunkMissing ⟨List.replicate 32 3⟩)) ∧
    gcsPrune "p/".toList false [] []
        ([] ++ gcsNameFromID "p/".toList false ⟨List.replicate 32 5⟩ ::
          [gcsNameFromID "p/".toList false ⟨List.replicate 31 5 ++ [6]⟩])
        [gcsNameFromID "p/".toList false ⟨List.replicate 31 5 ++ [6]⟩] =
      ([gcsNameFromID "p/".toList false ⟨List.replicate 31 5 ++ [6]⟩],
        some (.objNotExist
          (gcsNameFromID "p/".toList false ⟨List.replicate 32 5⟩))) :=
  ⟨prune_aborts_on_delete_failure.1 ['t'] false [] [] []
      ⟨localNameFromID ['t'] false ⟨List.replicate 32 3⟩, false⟩
      [⟨localNameFromID ['t'] false ⟨List.replicate 31 3 ++ [4]⟩, false⟩]
      [localNameFromID ['t'] false ⟨List.replicate 31 3 ++ [4]⟩]
      [localNameFromID ['t'] false ⟨List.replicate 31 3 ++ [4]⟩]
      (.chunkMissing ⟨List.replicate 32 3⟩) (by decide) (by rfl),
   prune_aborts_on_delete_failure.2 "p/".toList false [] [] []
      (gcsNameFromID "p/".toList false ⟨List.replicate 32 5⟩)
      [gcsNameFromID "p/".toList false ⟨List.replicate 31 5 ++ [6]⟩]
      [gcsNameFromID "p/".toList false ⟨List.replicate 31 5 ++ [6]⟩]
      [gcsNameFromID "p/".toList false ⟨List.replicate 31 5 ++ [6]⟩]
      (.objNotExist (gcsNameFromID "p/".toList false ⟨List.replicate 32 5⟩))
      (by decide) (by rfl)⟩

/-- When the destination never exists and every rename fails, the retry
loop performs one sleep + rename per remaining retry and fails with the
last rename error. -/
theorem storeLoop_allfail (env : RenameEnv) (f : Nat → Nat) :
    ∀ (r iter : Nat) (tr : List SCAction),
      (∀ j, iter ≤ j → j ≤ iter + r → env.statIsNotExist j = true) →
      (∀ k, iter + 1 ≤ k → k ≤ iter + r → env.renameErr k = some (f k)) →
      storeLoop env r iter (f iter) tr =
        (.failure (f (iter + r)),
          tr ++ ((List.range' (iter + 1) r).map
            (fun k => [SCAction.sleepMs 200, SCAction.rename k])).flatten) := by
  intro r
  induction r with
  | zero =>
    intro iter tr hstat hren
    simp only [storeLoop]
    rw [if_pos (hstat iter (Nat.le_refl _) (by omega))]
    simp [List.range']
  | succ n ih =>
    intro iter tr hstat hren
    simp only [storeLoop]
    rw [if_pos (hstat iter (Nat.le_refl _) (by omega))]
    rw [hren (iter + 1) (by omega) (by omega)]
    simp only []
    rw [ih (iter + 1) (tr ++ [SCAction.sleepMs 200, SCAction.rename (iter + 1)])
      (fun j h1 h2 => hstat j (by omega) (by omega))
      (fun k h1 h2 => hren k (by omega) (by omega))]
    rw [List.range'_succ]
    have harith : iter + 1 + n = iter + (n + 1) := by omega
    rw [harith]
    simp [List.append_assoc]

/-- One-step reduction: destination exists and validates, temp removal
succeeds: the call returns success. -/
theorem storeLoop_valid_removed (env : RenameEnv) (r iter err : Nat)
    (tr : List SCAction)
    (hstat : env.statIsNotExist iter = false)
    (hval : env.validate iter = .valid)
    (hrt : env.removeTmpErr iter = none) :
    storeLoop env (r + 1) iter err tr =
      (.success, tr ++ [.removeTmp iter]) := by
  rw [storeLoop, hstat, hval, hrt]
  rfl

/-- One-step reduction: destination invalid, removed, and the next
rename succeeds. -/
theorem storeLoop_invalid_retry_ok (env : RenameEnv) (r iter err : Nat)
    (tr : List SCAction)
    (hstat : env.statIsNotExist iter = false)
    (hval : env.validate iter = .chunkInvalid)
    (hr1 : env.renameErr (iter + 1) = none) :
    storeLoop env (r + 1) iter err tr =
      (.success, tr ++ [.removeDest iter, .sleepMs 200, .rename (iter + 1)]) := by
  rw [storeLoop, hstat, hval, hr1]
  rfl

/-- One-step reduction: destination invalid, removed, and the next
rename fails again: the loop continues. -/
theorem storeLoop_invalid_retry_fail (env : RenameEnv) (r iter err e2 : Nat)
    (tr : List SCAction)
    (hstat : env.statIsNotExist iter = false)
    (hval : env.validate iter = .chunkInvalid)
    (hr1 : env.renameErr (iter + 1) = some e2) :
    storeLoop env (r + 1) iter err tr =
      storeLoop env r (iter + 1) e2
        (tr ++ [.removeDest iter, .sleepMs 200, .rename (iter + 1)]) := by
  rw [storeLoop, hstat, hval, hr1]
  rfl

/-- C4: the rename-retry behaviour of `LocalStore.StoreChunk` after a
failed rename.  (a) If the destination never exists and every rename
fails, the rename is retried exactly 10 more times, each retry preceded
by a 200 ms sleep, and the last rename error is returned after
exhaustion.  (b) If the destination exists and validates as the correct
chunk, the temp file is removed and the call succeeds.  (c) If the
destination exists but is `ChunkInvalid`, the destination is removed
and the rename is retried. -/
theorem storeChunk_rename_retry (env : RenameEnv) (f : Nat → Nat) :
    ((∀ j, j ≤ 10 → env.statIsNotExist j = true) →
     (∀ k, k ≤ 10 → env.renameErr k = some (f k)) →
     StoreChunkRename env =
       (.failure (f 10),
        .rename 0 :: ((List.range' 1 10).map
          (fun k => [SCAction.sleepMs 200, SCAction.rename k])).flatten)) ∧
    (∀ e, env.renameErr 0 = some e →
     env.statIsNotExist 0 = false →
     env.validate 0 = .valid →
     env.removeTmpErr 0 = none →
     StoreChunkRename env = (.success, [.rename 0, .removeTmp 0])) ∧
    (∀ e, env.renameErr 0 = some e →
     env.statIsNotExist 0 = false →
     env.validate 0 = .chunkInvalid →
     ((env.renameErr 1 = none →
       StoreChunkRename env =
         (.success, [.rename 0, .removeDest 0, .sleepMs 200, .rename 1])) ∧
      (∀ e2, env.renameErr 1 = some e2 →
       StoreChunkRename env =
         storeLoop env 9 1 e2
           [.rename 0, .removeDest 0, .sleepMs 200, .rename 1]))) := by
  refine ⟨?_, ?_, ?_⟩
  · intro hstat hren
    unfold StoreChunkRename
    rw [hren 0 (by omega)]
    show storeLoop env 10 0 (f 0) [.rename 0] = _
    rw [storeLoop_allfail env f 10 0 [.rename 0]
      (fun j h1 h2 => hstat j (by omega))
      (fun k h1 h2 => hren k (by omega))]
    simp
  · intro e he hstat hval hrt
    unfold StoreChunkRename
    rw [he]
    show storeLoop env 10 0 e [.rename 0] = _
    rw [show (10 : Nat) = 9 + 1 from rfl]
    rw [storeLoop_valid_removed env 9 0 e [.rename 0] hstat hval hrt]
    rfl
  · intro e he hstat hval
    constructor
    · intro h1
      unfold StoreChunkRename
      rw [he]
      show storeLoop env 10 0 e [.rename 0] = _
      rw [show (10 : Nat) = 9 + 1 from rfl]
      rw [storeLoop_invalid_retry_ok env 9 0 e [.rename 0] hstat hval h1]
      rfl
    · intro e2 h1
      unfold StoreChunkRename
      rw [he]
      show storeLoop env 10 0 e [.rename 0] = _
      rw [show (10 : Nat) = 9 + 1 from rfl]
      rw [storeLoop_invalid_retry_fail env 9 0 e e2 [.rename 0] hstat hval h1]
      rfl

/-- Witness for C4: the three scenarios at concrete environments. -/
theorem storeChunk_rename_retry_witness :
    StoreChunkRename
        ⟨fun k => some k, fun _ => true, fun _ => .otherErr 0, fun _ => none⟩ =
      (.failure 10,
        .rename 0 :: ((List.range' 1 10).map
          (fun k => [SCAction.sleepMs 200, SCAction.rename k])).flatten) ∧
    StoreChunkRename
        ⟨fun _ => some 5, fun _ => false, fun _ => .valid, fun _ => none⟩ =
      (.success, [.rename 0, .removeTmp 0]) ∧
    StoreChunkRename
        ⟨fun k => if k = 0 then some 5 else none, fun _ => false,
          fun _ => .chunkInvalid, fun _ => none⟩ =
      (.success, [.rename 0, .removeDest 0, .sleepMs 200, .rename 1]) :=
  ⟨(storeChunk_rename_retry
      ⟨fun k => some k, fun _ => true, fun _ => .otherErr 0, fun _ => none⟩
      (fun k => k)).1 (by decide) (by decide),
   (storeChunk_rename_retry
      ⟨fun _ => some 5, fun _ => false, fun _ => .valid, fun _ => none⟩
      (fun k => k)).2.1 5 (by decide) (by decide) (by decide) (by decide),
   ((storeChunk_rename_retry
      ⟨fun k => if k = 0 then some 5 else none, fun _ => false,
        fun _ => .chunkInvalid, fun _ => none⟩
      (fun k => k)).2.2 5 (by decide) (by decide) (by decide)).1 (by decide)⟩

theorem hexVal_lt {c : Char} {n : Nat} (h : hexVal c = some n) : n < 16 := by
  have hmem := alookup_eq_some_mem h
  have hall : ∀ kv ∈ hexTable, kv.2 < 16 := by decide
  exact hall (c, n) hmem

theorem hexDigitChar_ne_slash (n : Nat) : hexDigitChar n ≠ '/' := by
  rcases Nat.lt_or_ge n 16 with hn | hn
  · have hall : ∀ m, m < 16 → hexDigitChar m ≠ '/' := by decide
    exact hall n hn
  · unfold hexDigitChar
    rw [List.getD_eq_default]
    · decide
    · exact hn

theorem hexVal_hexDigitChar : ∀ n, n < 16 → hexVal (hexDigitChar n) = some n := by
  decide

theorem decodeHex_bounds :
    ∀ (s : List Char) (bs : List Nat), decodeHex s = some bs →
      ∀ b ∈ bs, b < 256
  | [], bs, h => by
    simp only [decodeHex] at h
    injection h with h2
    subst h2
    simp
  | [c], bs, h => by
    simp only [decodeHex] at h
    exact Option.noConfusion h
  | c1 :: c2 :: rest, bs, h => by
    simp only [decodeHex] at h
    cases h1 : hexVal c1 with
    | none => rw [h1] at h; exact Option.noConfusion h
    | some hi =>
      cases h2 : hexVal c2 with
      | none => rw [h1, h2] at h; exact Option.noConfusion h
      | some lo =>
        cases h3 : decodeHex rest with
        | none => rw [h1, h2, h3] at h; exact Option.noConfusion h
        | some bs2 =>
          rw [h1, h2, h3] at h
          injection h with h4
          subst h4
          intro b hb
          rcases List.mem_cons.mp hb with rfl | hb
          · have := hexVal_lt h1
            have := hexVal_lt h2
            omega
          · exact decodeHex_bounds rest bs2 h3 b hb

theorem decodeHex_encodeHex :
    ∀ bs : List Nat, (∀ b ∈ bs, b < 256) →
      decodeHex (encodeHex bs) = some bs := by
  intro bs
  induction bs with
  | nil => intro h; rfl
  | cons b rest ih =>
    intro h
    have hb : b < 256 := h b (List.mem_cons_self _ _)
    simp only [encodeHex, decodeHex]
    rw [hexVal_hexDigitChar (b / 16) (by omega),
      hexVal_hexDigitChar (b % 16) (by omega),
      ih (fun x hx => h x (List.mem_cons_of_mem _ hx))]
    show some ((b / 16 * 16 + b % 16) :: rest) = some (b :: rest)
    have hb2 : b / 16 * 16 + b % 16 = b := by omega
    rw [hb2]

theorem encodeHex_no_slash : ∀ bs : List Nat, '/' ∉ encodeHex bs := by
  intro bs
  induction bs with
  | nil => simp [encodeHex]
  | cons b rest ih =>
    simp only [encodeHex]
    intro h
    rcases List.mem_cons.mp h with h1 | h1
    · exact hexDigitChar_ne_slash _ h1.symm
    · rcases List.mem_cons.mp h1 with h2 | h2
      · exact hexDigitChar_ne_slash _ h2.symm
      · exact ih h2

theorem ChunkIDFromString_ok {s : List Char} {id : ChunkID}
    (h : ChunkIDFromString s = some id) :
    id.bytes.length = 32 ∧ ∀ b ∈ id.bytes, b < 256 := by
  unfold ChunkIDFromString at h
  cases hd : decodeHex s with
  | none => rw [hd] at h; exact Option.noConfusion h
  | some bs =>
    rw [hd] at h
    simp only [] at h
    split_ifs at h with hl
    injection h with h2
    subst h2
    exact ⟨hl, decodeHex_bounds s bs hd⟩

theorem idStr_roundtrip {id : ChunkID} (hl : id.bytes.length = 32)
    (hb : ∀ b ∈ id.bytes, b < 256) :
    ChunkIDFromString (idStr id) = some id := by
  unfold ChunkIDFromString idStr
  rw [decodeHex_encodeHex id.bytes hb]
  simp [hl]

theorem takeWhile_all_append {p : Char → Bool} :
    ∀ (l1 : List Char) (c : Char) (l2 : List Char),
      (∀ x ∈ l1, p x = true) → p c = false →
      List.takeWhile p (l1 ++ c :: l2) = l1 := by
  intro l1
  induction l1 with
  | nil =>
    intro c l2 h1 h2
    simp [List.takeWhile, h2]
  | cons x xs ih =>
    intro c l2 h1 h2
    simp only [List.cons_append, List.takeWhile]
    rw [h1 x (List.mem_cons_self _ _)]
    show x :: List.takeWhile p (xs ++ c :: l2) = x :: xs
    rw [ih c l2 (fun y hy => h1 y (List.mem_cons_of_mem _ hy)) h2]

/-- The base name of a path whose final component has no separator. -/
theorem baseNameOf_concat (a b : List Char) (hb : '/' ∉ b) :
    baseNameOf (a ++ '/' :: b) = b := by
  unfold baseNameOf
  rw [List.reverse_append, List.reverse_cons, List.append_assoc,
    List.singleton_append]
  rw [takeWhile_all_append b.reverse '/' a.reverse
    (fun x hx => by
      simp only [decide_eq_true_eq]
      intro hxs
      exact hb (hxs ▸ List.mem_reverse.mp hx))
    (by decide)]
  exact List.reverse_reverse b

theorem trimSfx_append (x sfx : List Char) : trimSfx (x ++ sfx) sfx = x := by
  unfold trimSfx hasSfx
  rw [if_pos (List.suffix_append x sfx)]
  rw [List.length_append]
  have h1 : x.length + sfx.length - sfx.length = x.length := by omega
  rw [h1]
  exact List.take_left x sfx

theorem chunkExt_no_slash (unc : Bool) : '/' ∉ chunkExt unc := by
  cases unc <;> decide

/-- The facts the frame property needs about a canonical chunk path:
it carries the configured extension, and its base name, extension
trimmed, parses back to the same chunk ID. -/
theorem canonical_facts (pre : List Char) (unc : Bool) (id : ChunkID)
    (hl : id.bytes.length = 32) (hb : ∀ b ∈ id.bytes, b < 256) :
    hasSfx (pre ++ '/' :: (idStr id ++ chunkExt unc)) (chunkExt unc) ∧
      ChunkIDFromString
        (trimSfx (baseNameOf (pre ++ '/' :: (idStr id ++ chunkExt unc)))
          (chunkExt unc)) = some id := by
  have hnos : '/' ∉ idStr id ++ chunkExt unc := by
    intro h
    rcases List.mem_append.mp h with h1 | h1
    · exact encodeHex_no_slash id.bytes h1
    · exact chunkExt_no_slash unc h1
  constructor
  · unfold hasSfx
    have h1 : chunkExt unc <:+ idStr id ++ chunkExt unc :=
      List.suffix_append _ _
    have h2 : idStr id ++ chunkExt unc <:+
        pre ++ '/' :: (idStr id ++ chunkExt unc) := by
      have := List.suffix_append (pre ++ ['/']) (idStr id ++ chunkExt unc)
      rw [List.append_assoc, List.singleton_append] at this
      exact this
    exact h1.trans h2
  · rw [baseNameOf_concat pre (idStr id ++ chunkExt unc) hnos]
    rw [trimSfx_append]
    exact idStr_roundtrip hl hb

/-- `localNameFromID` in last-component shape. -/
theorem localNameFromID_shape (base : List Char) (unc : Bool) (id : ChunkID) :
    localNameFromID base unc id =
      (base ++ '/' :: (idStr id).take 4) ++
        '/' :: (idStr id ++ chunkExt unc) := by
  unfold localNameFromID pathJoin
  simp [List.append_assoc]

/-- `gcsNameFromID` in last-component shape. -/
theorem gcsNameFromID_shape (pfx : List Char) (unc : Bool) (id : ChunkID) :
    gcsNameFromID pfx unc id =
      (pfx ++ (idStr id).take 4) ++ '/' :: (idStr id ++ chunkExt unc) := by
  unfold gcsNameFromID
  simp [List.append_assoc]

theorem localPruneStep_frame {base : List Char} {unc : Bool}
    {live : List ChunkID} {bad : List (List Char)}
    {fs fs1 : List (List Char)} {e : WalkEntry}
    (h : localPruneStep base unc live bad fs e = .ok fs1) :
    (∀ p, p ∈ fs1 → p ∈ fs) ∧
    (∀ p, p ∈ fs → p ∉ fs1 →
      hasSfx p (chunkExt unc) ∧
      ∃ id, ChunkIDFromString (trimSfx (baseNameOf p) (chunkExt unc)) =
        some id) := by
  unfold localPruneStep at h
  by_cases hdir : e.isDir = true
  · rw [if_pos hdir] at h
    injection h with h3
    subst h3
    exact ⟨fun _ hp => hp, fun p hp hnp => absurd hp hnp⟩
  · rw [if_neg hdir] at h
    by_cases hsfx : hasSfx e.path (chunkExt unc)
    · rw [if_neg (by simpa using hsfx)] at h
      cases hparse :
          ChunkIDFromString (trimSfx (baseNameOf e.path) (chunkExt unc)) with
      | none =>
        rw [hparse] at h
        injection h with h3
        subst h3
        exact ⟨fun _ hp => hp, fun p hp hnp => absurd hp hnp⟩
      | some id =>
        rw [hparse] at h
        have h4 : (if id ∈ live then Except.ok fs
            else localRemoveChunk base unc fs bad id) =
            Except.ok (ε := PruneErr) fs1 := h
        clear h
        by_cases hlive : id ∈ live
        · rw [if_pos hlive] at h4
          injection h4 with h3
          subst h3
          exact ⟨fun _ hp => hp, fun p hp hnp => absurd hp hnp⟩
        · rw [if_neg hlive] at h4
          unfold localRemoveChunk at h4
          by_cases hin : localNameFromID base unc id ∈ fs
          · rw [if_pos hin] at h4
            by_cases hbad : localNameFromID base unc id ∈ bad
            · rw [if_pos hbad] at h4
              exact Except.noConfusion h4
            · rw [if_neg hbad] at h4
              injection h4 with h3
              subst h3
              refine ⟨fun p hp => List.erase_subset _ _ hp, ?_⟩
              intro p hp hnp
              have hpe : p = localNameFromID base unc id := by
                by_contra hne
                exact hnp ((List.mem_erase_of_ne hne).mpr hp)
              subst hpe
              obtain ⟨hl32, hbnd⟩ := ChunkIDFromString_ok hparse
              have hcf := canonical_facts (base ++ '/' :: (idStr id).take 4)
                unc id hl32 hbnd
              rw [localNameFromID_shape]
              exact ⟨hcf.1, id, hcf.2⟩
          · rw [if_neg hin] at h4
            exact Except.noConfusion h4
    · rw [if_pos (by simpa using hsfx)] at h
      injection h with h3
      subst h3
      exact ⟨fun _ hp => hp, fun p hp hnp => absurd hp hnp⟩

theorem localPrune_frame (base : List Char) (unc : Bool)
    (live : List ChunkID) (bad : List (List Char)) :
    ∀ (walk : List WalkEntry) (fs fs1 : List (List Char))
      (res : Option PruneErr),
      localPrune base unc live bad walk fs = (fs1, res) →
      (∀ p, p ∈ fs1 → p ∈ fs) ∧
      (∀ p, p ∈ fs → p ∉ fs1 →
        hasSfx p (chunkExt unc) ∧
        ∃ id, ChunkIDFromString (trimSfx (baseNameOf p) (chunkExt unc)) =
          some id) := by
  intro walk
  induction walk with
  | nil =>
    intro fs fs1 res h
    simp only [localPrune] at h
    injection h with h1 h2
    subst h1
    exact ⟨fun _ hp => hp, fun p hp hnp => absurd hp hnp⟩
  | cons e rest ih =>
    intro fs fs1 res h
    simp only [localPrune] at h
    cases hs : localPruneStep base unc live bad fs e with
    | ok fsa =>
      rw [hs] at h
      obtain ⟨hsub1, hrem1⟩ := localPruneStep_frame hs
      obtain ⟨hsub2, hrem2⟩ := ih fsa fs1 res h
      constructor
      · exact fun p hp => hsub1 p (hsub2 p hp)
      · intro p hp hnp
        by_cases hpa : p ∈ fsa
        · exact hrem2 p hpa hnp
        · exact hrem1 p hp hpa
    | error err =>
      rw [hs] at h
      injection h with h1 h2
      subst h1
      exact ⟨fun _ hp => hp, fun p hp hnp => absurd hp hnp⟩

theorem gcsIDFromName_ok {pfx : List Char} {unc : Bool} {name : List Char}
    {id : ChunkID} (h : gcsIDFromName pfx unc name = some id) :
    id.bytes.length = 32 ∧ ∀ b ∈ id.bytes, b < 256 := by
  unfold gcsIDFromName at h
  by_cases h1 : hasSfx name (chunkExt unc)
  · rw [if_neg (by simpa using h1)] at h
    cases hsp : splitCh '/' (trimSfx (trimPfx name pfx) (chunkExt unc)) with
    | nil =>
      rw [hsp] at h
      exact Option.noConfusion h
    | cons idx tl =>
      rw [hsp] at h
      cases tl with
      | nil => exact Option.noConfusion h
      | cons sid tl2 =>
        cases tl2 with
        | nil =>
          have h4 : (if idx <+: sid then ChunkIDFromString sid else none) =
              some id := h
          clear h
          by_cases hpf : idx <+: sid
          · rw [if_pos hpf] at h4
            exact ChunkIDFromString_ok h4
          · rw [if_neg hpf] at h4
            exact Option.noConfusion h4
        | cons c tl3 => exact Option.noConfusion h
  · rw [if_pos (by simpa using h1)] at h
    exact Option.noConfusion h

theorem gcsPruneStep_frame {pfx : List Char} {unc : Bool}
    {live : List ChunkID} {bad : List (List Char)}
    {objs objs1 : List (List Char)} {nm : List Char}
    (h : gcsPruneStep pfx unc live bad objs nm = .ok objs1) :
    (∀ p, p ∈ objs1 → p ∈ objs) ∧
    (∀ p, p ∈ objs → p ∉ objs1 →
      hasSfx p (chunkExt unc) ∧
      ∃ id, ChunkIDFromString (trimSfx (baseNameOf p) (chunkExt unc)) =
        some id) := by
  unfold gcsPruneStep at h
  cases hparse : gcsIDFromName pfx unc nm with
  | none =>
    rw [hparse] at h
    injection h with h3
    subst h3
    exact ⟨fun _ hp => hp, fun p hp hnp => absurd hp hnp⟩
  | some id =>
    rw [hparse] at h
    have h4 : (if id ∈ live then Except.ok objs
        else gcsRemoveChunk pfx unc objs bad id) =
        Except.ok (ε := PruneErr) objs1 := h
    clear h
    by_cases hlive : id ∈ live
    · rw [if_pos hlive] at h4
      injection h4 with h3
      subst h3
      exact ⟨fun _ hp => hp, fun p hp hnp => absurd hp hnp⟩
    · rw [if_neg hlive] at h4
      unfold gcsRemoveChunk at h4
      by_cases hin : gcsNameFromID pfx unc id ∈ objs
      · rw [if_pos hin] at h4
        by_cases hbad : gcsNameFromID pfx unc id ∈ bad
        · rw [if_pos hbad] at h4
          exact Except.noConfusion h4
        · rw [if_neg hbad] at h4
          injection h4 with h3
          subst h3
          refine ⟨fun p hp => List.erase_subset _ _ hp, ?_⟩
          intro p hp hnp
          have hpe : p = gcsNameFromID pfx unc id := by
            by_contra hne
            exact hnp ((List.mem_erase_of_ne hne).mpr hp)
          subst hpe
          obtain ⟨hl32, hbnd⟩ := gcsIDFromName_ok hparse
          have hcf := canonical_facts (pfx ++ (idStr id).take 4) unc id
            hl32 hbnd
          rw [gcsNameFromID_shape]
          exact ⟨hcf.1, id, hcf.2⟩
      · rw [if_neg hin] at h4
        exact Except.noConfusion h4

theorem gcsPrune_frame (pfx : List Char) (unc : Bool)
    (live : List ChunkID) (bad : List (List Char)) :
    ∀ (names : List (List Char)) (objs objs1 : List (List Char))
      (res : Option PruneErr),
      gcsPrune pfx unc live bad names objs = (objs1, res) →
      (∀ p, p ∈ objs1 → p ∈ objs) ∧
      (∀ p, p ∈ objs → p ∉ objs1 →
        hasSfx p (chunkExt unc) ∧
        ∃ id, ChunkIDFromString (trimSfx (baseNameOf p) (chunkExt unc)) =
          some id) := by
  intro names
  induction names with
  | nil =>
    intro objs objs1 res h
    simp only [gcsPrune] at h
    injection h with h1 h2
    subst h1
    exact ⟨fun _ hp => hp, fun p hp hnp => absurd hp hnp⟩
  | cons nm rest ih =>
    intro objs objs1 res h
    simp only [gcsPrune] at h
    cases hs : gcsPruneStep pfx unc live bad objs nm with
    | ok objsa =>
      rw [hs] at h
      obtain ⟨hsub1, hrem1⟩ := gcsPruneStep_frame hs
      obtain ⟨hsub2, hrem2⟩ := ih objsa objs1 res h
      constructor
      · exact fun p hp => hsub1 p (hsub2 p hp)
      · intro p hp hnp
        by_cases hpa : p ∈ objsa
        · exact hrem2 p hpa hnp
        · exact hrem1 p hp hpa
    | error err =>
      rw [hs] at h
      injection h with h1 h2
      subst h1
      exact ⟨fun _ hp => hp, fun p hp hnp => absurd hp hnp⟩

/-- C10: for both `LocalStore.Prune` and `GCSStore.Prune`, and every
live set, walked/listed entries and store contents, pruning only ever
removes paths (object names) that carry the store's configured chunk
extension and whose base name, extension trimmed, parses as a valid
`ChunkID`; nothing is added, and every other file or object is left
unchanged. -/
theorem prune_removes_only_chunks :
    (∀ (base : List Char) (unc : Bool) (live : List ChunkID)
        (bad : List (List Char)) (walk : List WalkEntry)
        (fs fs1 : List (List Char)) (res : Option PruneErr),
      localPrune base unc live bad walk fs = (fs1, res) →
      (∀ p, p ∈ fs1 → p ∈ fs) ∧
      (∀ p, p ∈ fs → p ∉ fs1 →
        hasSfx p (chunkExt unc) ∧
        ∃ id, ChunkIDFromString (trimSfx (baseNameOf p) (chunkExt unc)) =
          some id)) ∧
    (∀ (pfx : List Char) (unc : Bool) (live : List ChunkID)
        (bad : List (List Char)) (names : List (List Char))
        (objs objs1 : List (List Char)) (res : Option PruneErr),
      gcsPrune pfx unc live bad names objs = (objs1, res) →
      (∀ p, p ∈ objs1 → p ∈ objs) ∧
      (∀ p, p ∈ objs → p ∉ objs1 →
        hasSfx p (chunkExt unc) ∧
        ∃ id, ChunkIDFromString (trimSfx (baseNameOf p) (chunkExt unc)) =
          some id)) :=
  ⟨fun base unc live bad walk fs fs1 res h =>
      localPrune_frame base unc live bad walk fs fs1 res h,
   fun pfx unc live bad names objs objs1 res h =>
      gcsPrune_frame pfx unc live bad names objs objs1 res h⟩

/-- Witness for C10: concrete prune runs over stores holding two chunk
files and a non-chunk file (object); only the dead chunk is removed. -/
theorem prune_removes_only_chunks_witness :
    ((∀ p, p ∈ ["s/README".toList,
          localNameFromID ['s'] false ⟨List.replicate 31 7 ++ [8]⟩] →
        p ∈ [localNameFromID ['s'] false ⟨List.replicate 32 7⟩,
          "s/README".toList,
          localNameFromID ['s'] false ⟨List.replicate 31 7 ++ [8]⟩]) ∧
      (∀ p, p ∈ [localNameFromID ['s'] false ⟨List.replicate 32 7⟩,
            "s/README".toList,
            localNameFromID ['s'] false ⟨List.replicate 31 7 ++ [8]⟩] →
          p ∉ ["s/README".toList,
            localNameFromID ['s'] false ⟨List.replicate 31 7 ++ [8]⟩] →
          hasSfx p (chunkExt false) ∧
          ∃ id, ChunkIDFromString (trimSfx (baseNameOf p) (chunkExt false)) =
            some id)) ∧
    ((∀ p, p ∈ ["g/index.caibx".toList,
          gcsNameFromID "g/".toList false ⟨List.replicate 31 9 ++ [10]⟩] →
        p ∈ [gcsNameFromID "g/".toList false ⟨List.replicate 32 9⟩,
          "g/index.caibx".toList,
          gcsNameFromID "g/".toList false ⟨List.replicate 31 9 ++ [10]⟩]) ∧
      (∀ p, p ∈ [gcsNameFromID "g/".toList false ⟨List.replicate 32 9⟩,
            "g/index.caibx".toList,
            gcsNameFromID "g/".toList false ⟨List.replicate 31 9 ++ [10]⟩] →
          p ∉ ["g/index.caibx".toList,
            gcsNameFromID "g/".toList false ⟨List.replicate 31 9 ++ [10]⟩] →
          hasSfx p (chunkExt false) ∧
          ∃ id, ChunkIDFromString (trimSfx (baseNameOf p) (chunkExt false)) =
            some id)) :=
  ⟨prune_removes_only_chunks.1 ['s'] false [⟨List.replicate 31 7 ++ [8]⟩] []
      [⟨localNameFromID ['s'] false ⟨List.replicate 32 7⟩, false⟩,
       ⟨"s/README".toList, false⟩,
       ⟨localNameFromID ['s'] false ⟨List.replicate 31 7 ++ [8]⟩, false⟩]
      [localNameFromID ['s'] false ⟨List.replicate 32 7⟩,
       "s/README".toList,
       localNameFromID ['s'] false ⟨List.replicate 31 7 ++ [8]⟩]
      ["s/README".toList,
       localNameFromID ['s'] false ⟨List.replicate 31 7 ++ [8]⟩]
      none (by decide),
   prune_removes_only_chunks.2 "g/".toList false
      [⟨List.replicate 31 9 ++ [10]⟩] []
      [gcsNameFromID "g/".toList false ⟨List.replicate 32 9⟩,
       "g/index.caibx".toList,
       gcsNameFromID "g/".toList false ⟨List.replicate 31 9 ++ [10]⟩]
      [gcsNameFromID "g/".toList false ⟨List.replicate 32 9⟩,
       "g/index.caibx".toList,
       gcsNameFromID "g/".toList false ⟨List.replicate 31 9 ++ [10]⟩]
      ["g/index.caibx".toList,
       gcsNameFromID "g/".toList false ⟨List.replicate 31 9 ++ [10]⟩]
      none (by decide)⟩
